import Mathlib

/-!
# Verification of the `phesm` string utilities

Shallow embedding of the two source files of the repository:

* `src/traits/capitalize.rs` — the `Capitalize` and `CapitalizeUntrimmed`
  traits, each implemented (with textually identical bodies) for `String`
  and for `&str`.
* `src/util/serde.rs` — the serde helpers `trim_string` and
  `trim_optional_string`.

A Rust string is modelled as a `List Char` of its Unicode scalar values.
Byte indexing (`s[..n]` / `s[n..]`), which panics when `n` is not a UTF-8
character boundary, is modelled by `splitAtByte`, which returns `none`
exactly when Rust would panic; the capitalization functions therefore
return `Option (List Char)`, with `none` for a panic.  A serde
deserializer is modelled by the outcome of decoding with it: an
`Except E α` value, where `E` is the (abstract) error type of the decoder.
-/

set_option autoImplicit false

namespace Phesm

/-- Unicode `White_Space` property, the set tested by Rust's
`char::is_whitespace` (used by `str::find` in `capitalize_untrimmed`
and by `str::trim` in the serde helpers). -/
def isWhitespace (c : Char) : Bool :=
  decide (c.toNat = 0x09 ∨ c.toNat = 0x0A ∨ c.toNat = 0x0B ∨ c.toNat = 0x0C ∨
    c.toNat = 0x0D ∨ c.toNat = 0x20 ∨ c.toNat = 0x85 ∨ c.toNat = 0xA0 ∨
    c.toNat = 0x1680 ∨ (0x2000 ≤ c.toNat ∧ c.toNat ≤ 0x200A) ∨
    c.toNat = 0x2028 ∨ c.toNat = 0x2029 ∨ c.toNat = 0x202F ∨
    c.toNat = 0x205F ∨ c.toNat = 0x3000)

/-- Number of bytes of the UTF-8 encoding of one scalar value. -/
def utf8Size (c : Char) : Nat :=
  if c.toNat ≤ 0x7F then 1
  else if c.toNat ≤ 0x7FF then 2
  else if c.toNat ≤ 0xFFFF then 3
  else 4

/-- Byte length of the UTF-8 encoding of a string: Rust's `str::len`. -/
def utf8Len (s : List Char) : Nat := (s.map utf8Size).sum

/-- Models Rust's `char::to_uppercase` (the full, possibly expanding Unicode
uppercase mapping).  The mapping is given exactly on the Basic Latin and
Latin-1 blocks (including the expansion of `ß` U+00DF to `SS` and the
cross-block mappings of `µ` U+00B5 and `ÿ` U+00FF); scalar values above
U+00FF are mapped to themselves.  In every execution of the embedded
functions in which byte slicing succeeds, this function is only ever
applied to ASCII and to whitespace scalar values, where the full Unicode
mapping is also the identity outside ASCII. -/
def charToUppercase (c : Char) : List Char :=
  if 0x61 ≤ c.toNat ∧ c.toNat ≤ 0x7A then [Char.ofNat (c.toNat - 0x20)]
  else if c.toNat = 0xB5 then [Char.ofNat 0x39C]
  else if c.toNat = 0xDF then [Char.ofNat 0x53, Char.ofNat 0x53]
  else if 0xE0 ≤ c.toNat ∧ c.toNat ≤ 0xFE ∧ c.toNat ≠ 0xF7 then
    [Char.ofNat (c.toNat - 0x20)]
  else if c.toNat = 0xFF then [Char.ofNat 0x178]
  else [c]

/-- Models Rust's `str::to_uppercase`: uppercases every scalar value,
concatenating the (possibly multi-scalar) results. -/
def toUppercase (s : List Char) : List Char :=
  (s.map charToUppercase).flatten

/-- Models the pair of byte slices `(&s[..n], &s[n..])`.  Returns `some`
exactly when `n` is a character-boundary byte offset of `s` (so `n` at most
the byte length); Rust panics otherwise, modelled by `none`. -/
def splitAtByte : List Char → Nat → Option (List Char × List Char)
  | s, 0 => some ([], s)
  | [], _ + 1 => none
  | c :: cs, n + 1 =>
    if utf8Size c ≤ n + 1 then
      (splitAtByte cs (n + 1 - utf8Size c)).map (fun r => (c :: r.1, r.2))
    else none

/-- Models `self.find(|c: char| !c.is_whitespace())`: the byte offset of the
start of the first non-whitespace scalar value, if any. -/
def findNonWsByteOffset : List Char → Option Nat
  | [] => none
  | c :: cs =>
    if isWhitespace c then (findNonWsByteOffset cs).map (fun i => i + utf8Size c)
    else some 0

/-- The `idx` computed by both `capitalize_untrimmed` impls:
`self.find(|c: char| !c.is_whitespace()).map(|i| i + 1).unwrap_or(1)`. -/
def untrimIdx (s : List Char) : Nat :=
  ((findNonWsByteOffset s).map (fun i => i + 1)).getD 1

/-- Embedding of `impl Capitalize for String` (capitalize.rs lines 58-64):
`if self.len() > 0 { self[..1].to_uppercase() + &self[1..] } else { String::new() }`.
`none` models the panic of the byte slice at offset 1. -/
def capitalize (s : List Char) : Option (List Char) :=
  if utf8Len s > 0 then
    (splitAtByte s 1).map (fun r => toUppercase r.1 ++ r.2)
  else some []

/-- Embedding of `impl Capitalize for &str` (capitalize.rs lines 67-73),
whose body is textually identical to the `String` impl. -/
def capitalizeStr (s : List Char) : Option (List Char) :=
  if utf8Len s > 0 then
    (splitAtByte s 1).map (fun r => toUppercase r.1 ++ r.2)
  else some []

/-- Embedding of `impl CapitalizeUntrimmed for String` (capitalize.rs lines
107-117): computes `idx` as in `untrimIdx`, then
`if self.len() > 0 { self[..idx].to_uppercase() + &self[idx..] } else { String::new() }`. -/
def capitalize_untrimmed (s : List Char) : Option (List Char) :=
  if utf8Len s > 0 then
    (splitAtByte s (untrimIdx s)).map (fun r => toUppercase r.1 ++ r.2)
  else some []

/-- Embedding of `impl CapitalizeUntrimmed for &str` (capitalize.rs lines
120-130), whose body is textually identical to the `String` impl. -/
def capitalizeUntrimmedStr (s : List Char) : Option (List Char) :=
  if utf8Len s > 0 then
    (splitAtByte s (untrimIdx s)).map (fun r => toUppercase r.1 ++ r.2)
  else some []

/-- Models Rust's `str::trim`: removes leading and trailing scalar values
with the `White_Space` property. -/
def trim (s : List Char) : List Char :=
  (((s.dropWhile isWhitespace).reverse.dropWhile isWhitespace)).reverse

/-- Embedding of `trim_string` (serde.rs lines 39-45).  The deserializer
argument is modelled by the outcome of `String::deserialize(deserializer)`:
either a decoder error of abstract type `E` or the decoded string.  The
source propagates the error with `?` and otherwise returns the trimmed
string. -/
def trim_string {E : Type} (d : Except E (List Char)) : Except E (List Char) :=
  match d with
  | Except.error e => Except.error e
  | Except.ok s => Except.ok (trim s)

/-- Embedding of `trim_optional_string` (serde.rs lines 66-83).  The
deserializer is modelled by the outcome of
`Option::<String>::deserialize(deserializer)`.  The source propagates the
error with `?`; on `None` it returns `None`; on `Some` it trims, returns
`None` when the trimmed string is empty, and the trimmed string otherwise. -/
def trim_optional_string {E : Type} (d : Except E (Option (List Char))) :
    Except E (Option (List Char)) :=
  match d with
  | Except.error e => Except.error e
  | Except.ok none => Except.ok none
  | Except.ok (some s) =>
    if trim s = [] then Except.ok none else Except.ok (some (trim s))

/-! ## Helper lemmas -/

theorem utf8Size_pos (c : Char) : 1 ≤ utf8Size c := by
  unfold utf8Size
  split_ifs <;> omega

theorem utf8Len_nil : utf8Len [] = 0 := rfl

theorem utf8Len_cons (c : Char) (s : List Char) :
    utf8Len (c :: s) = utf8Size c + utf8Len s := by
  simp [utf8Len]

theorem utf8Len_append (s t : List Char) :
    utf8Len (s ++ t) = utf8Len s + utf8Len t := by
  simp [utf8Len]

theorem utf8Len_eq_zero {s : List Char} (h : utf8Len s = 0) : s = [] := by
  cases s with
  | nil => rfl
  | cons c cs =>
    rw [utf8Len_cons] at h
    have := utf8Size_pos c
    omega

theorem utf8Len_eq_one {s : List Char} (h : utf8Len s = 1) :
    ∃ c, s = [c] ∧ utf8Size c = 1 := by
  cases s with
  | nil => simp [utf8Len_nil] at h
  | cons c cs =>
    rw [utf8Len_cons] at h
    have h1 := utf8Size_pos c
    cases cs with
    | nil =>
      refine ⟨c, rfl, ?_⟩
      simp [utf8Len_nil] at h
      omega
    | cons d ds =>
      rw [utf8Len_cons] at h
      have h2 := utf8Size_pos d
      omega

theorem utf8Size_eq_one {c : Char} (h : utf8Size c = 1) : c.toNat ≤ 0x7F := by
  unfold utf8Size at h
  split_ifs at h <;> omega

theorem charToUppercase_length_of_ascii {c : Char} (h : c.toNat ≤ 0x7F) :
    (charToUppercase c).length = 1 := by
  unfold charToUppercase
  split_ifs with h1 h2 h3 h4 h5 <;> first | rfl | omega

theorem charToUppercase_ws {c : Char} (h : isWhitespace c = true) :
    charToUppercase c = [c] := by
  have hv : c.toNat = 0x09 ∨ c.toNat = 0x0A ∨ c.toNat = 0x0B ∨ c.toNat = 0x0C ∨
      c.toNat = 0x0D ∨ c.toNat = 0x20 ∨ c.toNat = 0x85 ∨ c.toNat = 0xA0 ∨
      c.toNat = 0x1680 ∨ (0x2000 ≤ c.toNat ∧ c.toNat ≤ 0x200A) ∨
      c.toNat = 0x2028 ∨ c.toNat = 0x2029 ∨ c.toNat = 0x202F ∨
      c.toNat = 0x205F ∨ c.toNat = 0x3000 := of_decide_eq_true h
  unfold charToUppercase
  split_ifs with h1 h2 h3 h4 h5 <;> first | rfl | omega

theorem charToUppercase_length_of_ws {c : Char} (h : isWhitespace c = true) :
    (charToUppercase c).length = 1 := by
  rw [charToUppercase_ws h]
  rfl

theorem toUppercase_nil : toUppercase [] = [] := rfl

theorem toUppercase_cons (c : Char) (s : List Char) :
    toUppercase (c :: s) = charToUppercase c ++ toUppercase s := by
  simp [toUppercase]

theorem toUppercase_length {s : List Char}
    (h : ∀ c ∈ s, (charToUppercase c).length = 1) :
    (toUppercase s).length = s.length := by
  induction s with
  | nil => rfl
  | cons c cs ih =>
    rw [toUppercase_cons, List.length_append, List.length_cons,
      h c (List.mem_cons_self c cs), ih (fun d hd => h d (List.mem_cons_of_mem c hd))]
    omega

theorem toUppercase_ws_id {s : List Char}
    (h : ∀ c ∈ s, isWhitespace c = true) : toUppercase s = s := by
  induction s with
  | nil => rfl
  | cons c cs ih =>
    rw [toUppercase_cons, charToUppercase_ws (h c (List.mem_cons_self c cs)),
      ih (fun d hd => h d (List.mem_cons_of_mem c hd))]
    rfl

theorem splitAtByte_eq :
    ∀ (s : List Char) (n : Nat) (p q : List Char),
      splitAtByte s n = some (p, q) → s = p ++ q ∧ utf8Len p = n := by
  intro s
  induction s with
  | nil =>
    intro n p q h
    cases n with
    | zero =>
      simp only [splitAtByte, Option.some.injEq, Prod.mk.injEq] at h
      obtain ⟨hp, hq⟩ := h
      subst hp; subst hq
      exact ⟨rfl, rfl⟩
    | succ n => simp [splitAtByte] at h
  | cons c cs ih =>
    intro n p q h
    cases n with
    | zero =>
      simp only [splitAtByte, Option.some.injEq, Prod.mk.injEq] at h
      obtain ⟨hp, hq⟩ := h
      subst hp; subst hq
      exact ⟨rfl, rfl⟩
    | succ n =>
      simp only [splitAtByte] at h
      split_ifs at h with hle
      · rw [Option.map_eq_some'] at h
        obtain ⟨⟨p', q'⟩, hsp, hf⟩ := h
        simp only [Prod.mk.injEq] at hf
        obtain ⟨hp, hq⟩ := hf
        subst hp; subst hq
        obtain ⟨hs, hl⟩ := ih (n + 1 - utf8Size c) p' q' hsp
        constructor
        · rw [List.cons_append, hs]
        · rw [utf8Len_cons, hl]
          omega

theorem splitAtByte_append :
    ∀ (w t : List Char) (m : Nat),
      splitAtByte (w ++ t) (utf8Len w + m) =
        (splitAtByte t m).map (fun r => (w ++ r.1, r.2)) := by
  intro w
  induction w with
  | nil =>
    intro t m
    rw [utf8Len_nil, List.nil_append, Nat.zero_add]
    cases h : splitAtByte t m with
    | none => rfl
    | some r => cases r; rfl
  | cons c w ih =>
    intro t m
    have h1 := utf8Size_pos c
    have hn : utf8Len (c :: w) + m = (utf8Size c + (utf8Len w + m) - 1) + 1 := by
      rw [utf8Len_cons]; omega
    rw [List.cons_append, hn]
    simp only [splitAtByte]
    have hle : utf8Size c ≤ utf8Size c + (utf8Len w + m) - 1 + 1 := by omega
    rw [if_pos hle]
    have hsub : utf8Size c + (utf8Len w + m) - 1 + 1 - utf8Size c = utf8Len w + m := by
      omega
    rw [hsub, ih t m, Option.map_map]
    cases h : splitAtByte t m with
    | none => rfl
    | some r => cases r; rfl

theorem findNonWs_none :
    ∀ (s : List Char), findNonWsByteOffset s = none →
      ∀ c ∈ s, isWhitespace c = true := by
  intro s
  induction s with
  | nil => intro _ c hc; cases hc
  | cons c cs ih =>
    intro h d hd
    simp only [findNonWsByteOffset] at h
    split_ifs at h with hw
    · rw [Option.map_eq_none'] at h
      rcases List.mem_cons.mp hd with h1 | h1
      · rw [h1]; exact hw
      · exact ih h d h1

theorem findNonWs_some :
    ∀ (s : List Char) (i : Nat), findNonWsByteOffset s = some i →
      ∃ w c0 rest, s = w ++ c0 :: rest ∧ (∀ c ∈ w, isWhitespace c = true) ∧
        isWhitespace c0 = false ∧ utf8Len w = i := by
  intro s
  induction s with
  | nil => intro i h; simp [findNonWsByteOffset] at h
  | cons c cs ih =>
    intro i h
    simp only [findNonWsByteOffset] at h
    split_ifs at h with hw
    · rw [Option.map_eq_some'] at h
      obtain ⟨j, hj, hji⟩ := h
      obtain ⟨w, c0, rest, hs, hws, hc0, hlen⟩ := ih j hj
      refine ⟨c :: w, c0, rest, ?_, ?_, hc0, ?_⟩
      · rw [List.cons_append, hs]
      · intro d hd
        rcases List.mem_cons.mp hd with h1 | h1
        · rw [h1]; exact hw
        · exact hws d h1
      · rw [utf8Len_cons, hlen]
        omega
    · simp only [Option.some.injEq] at h
      refine ⟨[], c, cs, rfl, ?_, ?_, ?_⟩
      · intro d hd; cases hd
      · rw [Bool.eq_false_iff]; exact hw
      · rw [← h]; rfl

theorem splitAtByte_one (c : Char) (cs : List Char) :
    splitAtByte (c :: cs) 1 = if utf8Size c = 1 then some ([c], cs) else none := by
  have h1 := utf8Size_pos c
  show splitAtByte (c :: cs) (0 + 1) = _
  simp only [splitAtByte]
  split_ifs with h2 h3 h4
  · rw [h3]
    simp [splitAtByte]
  · omega
  · omega
  · rfl

theorem untrimIdx_pos (s : List Char) : 1 ≤ untrimIdx s := by
  unfold untrimIdx
  cases findNonWsByteOffset s with
  | none => simp
  | some i => simp

theorem untrimRegionChars {s p q : List Char}
    (h : splitAtByte s (untrimIdx s) = some (p, q)) :
    ∀ c ∈ p, (charToUppercase c).length = 1 := by
  have hpq := (splitAtByte_eq s (untrimIdx s) p q h).1
  cases hf : findNonWsByteOffset s with
  | none =>
    intro c hc
    have hcs : c ∈ s := by
      rw [hpq]
      exact List.mem_append_left q hc
    exact charToUppercase_length_of_ws (findNonWs_none s hf c hcs)
  | some i =>
    obtain ⟨w, c0, rest, hs, hws, hc0, hlen⟩ := findNonWs_some s i hf
    have hidx : untrimIdx s = utf8Len w + 1 := by
      unfold untrimIdx
      rw [hf, Option.map_some', Option.getD_some, hlen]
    rw [hidx, hs, splitAtByte_append w (c0 :: rest) 1, splitAtByte_one] at h
    split_ifs at h with hsz
    · simp only [Option.map_some', Option.some.injEq, Prod.mk.injEq] at h
      obtain ⟨hp, _⟩ := h
      intro c hc
      rw [← hp] at hc
      rcases List.mem_append.mp hc with h1 | h1
      · exact charToUppercase_length_of_ws (hws c h1)
      · rw [List.mem_singleton.mp h1]
        exact charToUppercase_length_of_ascii (utf8Size_eq_one hsz)
    · simp at h

theorem capitalize_cases {s t : List Char} (h : capitalize s = some t) :
    (s = [] ∧ t = []) ∨
      ∃ c q, s = c :: q ∧ utf8Size c = 1 ∧ (charToUppercase c).length = 1 ∧
        t = charToUppercase c ++ q := by
  unfold capitalize at h
  split_ifs at h with hlen
  · rw [Option.map_eq_some'] at h
    obtain ⟨⟨p, q⟩, hsp, hf⟩ := h
    obtain ⟨hs, hl⟩ := splitAtByte_eq s 1 p q hsp
    obtain ⟨c, hp, hsz⟩ := utf8Len_eq_one hl
    refine Or.inr ⟨c, q, ?_, hsz, charToUppercase_length_of_ascii (utf8Size_eq_one hsz), ?_⟩
    · rw [hs, hp]
      rfl
    · rw [← hf, hp]
      simp [toUppercase]
  · have hs : s = [] := utf8Len_eq_zero (by omega)
    simp only [Option.some.injEq] at h
    exact Or.inl ⟨hs, h.symm⟩

theorem capitalize_untrimmed_eq {s p q t : List Char}
    (h : capitalize_untrimmed s = some t)
    (hsplit : splitAtByte s (untrimIdx s) = some (p, q)) :
    t = toUppercase p ++ q ∧ s = p ++ q ∧ (toUppercase p).length = p.length := by
  obtain ⟨hs, hl⟩ := splitAtByte_eq s (untrimIdx s) p q hsplit
  have hpos : utf8Len s > 0 := by
    have h1 := untrimIdx_pos s
    rw [hs, utf8Len_append]
    omega
  unfold capitalize_untrimmed at h
  rw [if_pos hpos, hsplit, Option.map_some', Option.some.injEq] at h
  exact ⟨h.symm, hs, toUppercase_length (untrimRegionChars hsplit)⟩

theorem dropWhile_length_le (p : Char → Bool) :
    ∀ s : List Char, (s.dropWhile p).length ≤ s.length := by
  intro s
  induction s with
  | nil => exact Nat.le_refl 0
  | cons c cs ih =>
    rw [List.dropWhile_cons]
    split_ifs
    · exact Nat.le_trans ih (Nat.le_succ _)
    · exact Nat.le_refl _

theorem trim_length_le (s : List Char) : (trim s).length ≤ s.length := by
  unfold trim
  rw [List.length_reverse]
  calc ((s.dropWhile isWhitespace).reverse.dropWhile isWhitespace).length
      ≤ (s.dropWhile isWhitespace).reverse.length := dropWhile_length_le _ _
    _ = (s.dropWhile isWhitespace).length := List.length_reverse _
    _ ≤ s.length := dropWhile_length_le _ _

theorem dropWhile_head_not (p : Char → Bool) :
    ∀ s : List Char, ((s.dropWhile p).head?.all fun c => ! p c) = true := by
  intro s
  induction s with
  | nil => rfl
  | cons c cs ih =>
    rw [List.dropWhile_cons]
    split_ifs with hc
    · exact ih
    · simp only [List.head?_cons, Option.all_some]
      rw [Bool.not_eq_true] at hc
      rw [hc]
      rfl

/-! ## Claim theorems -/

/-- C1: The claim states that `capitalize` maps the empty string to the empty
string and otherwise uppercases the input's first Unicode scalar value (with
possible multi-scalar expansion, so that an input starting with `ß` U+00DF
yields `SS` followed by the rest), returning whitespace-initial strings
effectively unchanged.  On the code this fails: `capitalize` slices the
string at byte offset 1, which lies inside any multi-byte first character,
so on the one-character input `ß` the code panics (modelled by `none`)
instead of returning `SS`.  The remaining conjuncts record that the code
does behave as claimed on empty, ASCII-initial and ASCII-whitespace-initial
inputs. -/
theorem C1_capitalize_panics_on_eszett :
    capitalize [Char.ofNat 0xDF] = none ∧
    capitalize [] = some [] ∧
    capitalize ['h', 'i'] = some ['H', 'i'] ∧
    capitalize [' ', 'h', 'i'] = some [' ', 'h', 'i'] := by
  decide

/-- C2: The claim states that `capitalize_untrimmed` computes `idx` as the
end-of-character byte offset of the first non-whitespace scalar value.  The
code instead computes the offset of the START of that character plus one
(`.map(|i| i + 1)`), which equals the end-of-character offset only for
single-byte characters.  On `ßx` the first non-whitespace character `ß`
starts at byte 0 and ends at byte 2, so the claim's `idx` is 2 and the
output would be `SSx`; the code's `idx` is 1, which is inside `ß`, and the
byte slice panics (`none`).  The last conjunct records the claimed behavior
on a single-byte first non-whitespace character, where start-plus-one and
end-of-character coincide. -/
theorem C2_untrimmed_idx_is_start_plus_one :
    capitalize_untrimmed [Char.ofNat 0xDF, 'x'] = none ∧
    untrimIdx [Char.ofNat 0xDF, 'x'] = 1 ∧
    capitalize_untrimmed [' ', 'a', 'b'] = some [' ', 'A', 'b'] := by
  decide

/-- C3: The claim states that `capitalize` and `capitalize_untrimmed` have
no error paths and produce a defined output on every input without
panicking.  On the code this fails: on the one-character whitespace-only
input U+3000 (ideographic space, three bytes in UTF-8) both functions slice
at byte offset 1, which is not a character boundary, and panic (`none`). -/
theorem C3_panics_on_multibyte_first_char :
    capitalize [Char.ofNat 0x3000] = none ∧
    capitalize_untrimmed [Char.ofNat 0x3000] = none := by
  decide

/-- C4: On every input on which the operation is defined (no panic), the
outputs of `capitalize` and `capitalize_untrimmed` have exactly as many
scalar values as the input, and the outputs of `trim_string` and
`trim_optional_string` have at most as many scalar values as the decoded
input string. -/
theorem C4_scalar_count :
    (∀ s t : List Char, capitalize s = some t → t.length = s.length) ∧
    (∀ s t : List Char, capitalize_untrimmed s = some t → t.length = s.length) ∧
    (∀ (E : Type) (s : List Char),
      trim_string (Except.ok s : Except E (List Char)) = Except.ok (trim s) ∧
        (trim s).length ≤ s.length) ∧
    (∀ (E : Type) (s t : List Char),
      trim_optional_string (Except.ok (some s) : Except E (Option (List Char))) =
          Except.ok (some t) → t.length ≤ s.length) := by
  refine ⟨?_, ?_, ?_, ?_⟩
  · intro s t h
    rcases capitalize_cases h with ⟨hs, ht⟩ | ⟨c, q, hs, _, hlen, ht⟩
    · rw [hs, ht]
    · rw [ht, hs, List.length_append, hlen, List.length_cons]
      omega
  · intro s t h
    by_cases hpos : utf8Len s > 0
    · have h2 := h
      unfold capitalize_untrimmed at h2
      rw [if_pos hpos, Option.map_eq_some'] at h2
      obtain ⟨⟨p, q⟩, hsp, _⟩ := h2
      obtain ⟨ht, hs, hlen⟩ := capitalize_untrimmed_eq h hsp
      rw [ht, hs, List.length_append, List.length_append, hlen]
    · have hs : s = [] := utf8Len_eq_zero (by omega)
      subst hs
      unfold capitalize_untrimmed at h
      simp only [if_neg hpos, Option.some.injEq] at h
      rw [← h]
  · intro E s
    exact ⟨rfl, trim_length_le s⟩
  · intro E s t h
    simp only [trim_optional_string] at h
    split_ifs at h with he
    · simp at h
    · simp only [Except.ok.injEq, Option.some.injEq] at h
      rw [← h]
      exact trim_length_le s

/-- C4 witness: the scalar-count theorem applied at concrete inputs
(`capitalize "hi" = "Hi"`, `capitalize_untrimmed " a" = " A"`,
`trim_optional_string` on decoded `" b "` yielding `"b"`). -/
theorem C4_scalar_count_witness :
    (['H', 'i'] : List Char).length = (['h', 'i'] : List Char).length ∧
    ([' ', 'A'] : List Char).length = ([' ', 'a'] : List Char).length ∧
    (['b'] : List Char).length ≤ ([' ', 'b', ' '] : List Char).length :=
  ⟨C4_scalar_count.1 ['h', 'i'] ['H', 'i'] (by decide),
   C4_scalar_count.2.1 [' ', 'a'] [' ', 'A'] (by decide),
   C4_scalar_count.2.2.2 Unit [' ', 'b', ' '] ['b'] (by rfl)⟩

/-- C5: `trim_optional_string` maps a decoded absent value to absent; a
decoded present string is trimmed, with an empty-after-trim result dropped
to absent and a non-empty result returned as present; in particular the
all-whitespace present input is dropped to absent. -/
theorem C5_trim_optional_behavior :
    ∀ (E : Type) (s : List Char),
      trim_optional_string (Except.ok none : Except E (Option (List Char))) =
          Except.ok none ∧
      trim_optional_string (Except.ok (some s) : Except E (Option (List Char))) =
          Except.ok (if trim s = [] then none else some (trim s)) ∧
      trim_optional_string
          (Except.ok (some [' ', ' ', ' ']) : Except E (Option (List Char))) =
          Except.ok none := by
  intro E s
  refine ⟨rfl, ?_, by rfl⟩
  simp only [trim_optional_string]
  split_ifs <;> rfl

/-- C6: `trim_string` returns the decoded string with leading and trailing
whitespace removed: the input splits as a whitespace run, the returned
string, and a whitespace run, and the returned string neither starts nor
ends with whitespace; on `"   Hello, World!   "` it yields
`"Hello, World!"`. -/
theorem C6_trim_string_behavior :
    (∀ (E : Type) (s : List Char), ∃ t a b : List Char,
      trim_string (Except.ok s : Except E (List Char)) = Except.ok t ∧
      s = a ++ t ++ b ∧
      a.all isWhitespace = true ∧
      b.all isWhitespace = true ∧
      (t.head?.all fun c => ! isWhitespace c) = true ∧
      (t.getLast?.all fun c => ! isWhitespace c) = true) ∧
    trim [' ', ' ', ' ', 'H', 'e', 'l', 'l', 'o', ',', ' ',
        'W', 'o', 'r', 'l', 'd', '!', ' ', ' ', ' '] =
      ['H', 'e', 'l', 'l', 'o', ',', ' ', 'W', 'o', 'r', 'l', 'd', '!'] := by
  constructor
  · intro E s
    have hu : s.dropWhile isWhitespace =
        trim s ++ ((s.dropWhile isWhitespace).reverse.takeWhile isWhitespace).reverse := by
      unfold trim
      conv_lhs => rw [← List.reverse_reverse (s.dropWhile isWhitespace),
        ← List.takeWhile_append_dropWhile isWhitespace (s.dropWhile isWhitespace).reverse]
      rw [List.reverse_append]
    refine ⟨trim s, s.takeWhile isWhitespace,
      ((s.dropWhile isWhitespace).reverse.takeWhile isWhitespace).reverse,
      rfl, ?_, ?_, ?_, ?_, ?_⟩
    · conv_lhs => rw [← List.takeWhile_append_dropWhile isWhitespace s, hu]
      rw [List.append_assoc]
    · rw [List.all_eq_true]
      intro c hc
      exact List.mem_takeWhile_imp hc
    · rw [List.all_reverse, List.all_eq_true]
      intro c hc
      exact List.mem_takeWhile_imp hc
    · cases ht : trim s with
      | nil => rfl
      | cons x t2 =>
        have hh := dropWhile_head_not isWhitespace s
        rw [hu, ht, List.cons_append, List.head?_cons] at hh
        rw [List.head?_cons]
        exact hh
    · show ((((s.dropWhile isWhitespace).reverse.dropWhile
          isWhitespace)).reverse.getLast?.all fun c => ! isWhitespace c) = true
      rw [List.getLast?_reverse]
      exact dropWhile_head_not isWhitespace _
  · decide

/-- C7: `trim_string` and `trim_optional_string` fail exactly when the
underlying decoder fails, and in that case the decoder's error value is
returned verbatim; on every successfully decoded value they return
successfully. -/
theorem C7_error_propagation :
    ∀ (E : Type) (e : E),
      trim_string (Except.error e : Except E (List Char)) = Except.error e ∧
      trim_optional_string (Except.error e : Except E (Option (List Char))) =
        Except.error e ∧
      (∀ s : List Char,
        (trim_string (Except.ok s : Except E (List Char))).isOk = true) ∧
      (∀ o : Option (List Char),
        (trim_optional_string
          (Except.ok o : Except E (Option (List Char)))).isOk = true) := by
  intro E e
  refine ⟨rfl, rfl, fun s => rfl, fun o => ?_⟩
  cases o with
  | none => rfl
  | some s =>
    simp only [trim_optional_string]
    split_ifs <;> rfl

/-- C8: Wherever the operations are defined, every scalar value after the
capitalized region is passed through unchanged and in order: the output of
`capitalize` agrees with the input after the first scalar value, and the
output of `capitalize_untrimmed` agrees with the input after the prefix cut
at byte offset `idx`, that suffix being exactly the remainder of the
input. -/
theorem C8_suffix_preserved :
    (∀ s t : List Char, capitalize s = some t → t.drop 1 = s.drop 1) ∧
    (∀ s t p q : List Char, capitalize_untrimmed s = some t →
      splitAtByte s (untrimIdx s) = some (p, q) →
      t.drop p.length = q ∧ s.drop p.length = q) := by
  constructor
  · intro s t h
    rcases capitalize_cases h with ⟨hs, ht⟩ | ⟨c, q, hs, _, hlen, ht⟩
    · rw [hs, ht]
    · rw [ht, hs]
      have h2 : (c :: q).drop 1 = q := rfl
      rw [h2, ← hlen, List.drop_left]
  · intro s t p q h hsplit
    obtain ⟨ht, hs, hlen⟩ := capitalize_untrimmed_eq h hsplit
    constructor
    · rw [ht, ← hlen, List.drop_left]
    · rw [hs]
      exact List.drop_left p q

/-- C8 witness: the suffix-preservation theorem applied at the concrete
inputs `"ab"` (capitalize) and `" ac"` (capitalize_untrimmed, whose prefix
at byte offset 2 is `" a"`). -/
theorem C8_suffix_preserved_witness :
    (['A', 'b'] : List Char).drop 1 = (['a', 'b'] : List Char).drop 1 ∧
    ([' ', 'A', 'c'] : List Char).drop ([' ', 'a'] : List Char).length = ['c'] ∧
    ([' ', 'a', 'c'] : List Char).drop ([' ', 'a'] : List Char).length = ['c'] := by
  refine ⟨C8_suffix_preserved.1 ['a', 'b'] ['A', 'b'] (by decide), ?_⟩
  exact C8_suffix_preserved.2 [' ', 'a', 'c'] [' ', 'A', 'c'] [' ', 'a'] ['c']
    (by decide) (by decide)

/-- C9: On every string whose first character is not whitespace,
`capitalize_untrimmed` computes `idx = 1` and coincides with `capitalize`
(as partial functions, so also where both panic); in particular
`capitalize_untrimmed "hello" = "Hello"`. -/
theorem C9_untrimmed_eq_capitalize_without_leading_ws :
    (∀ (c : Char) (rest : List Char), isWhitespace c = false →
      capitalize_untrimmed (c :: rest) = capitalize (c :: rest)) ∧
    capitalize_untrimmed ['h', 'e', 'l', 'l', 'o'] =
      some ['H', 'e', 'l', 'l', 'o'] := by
  constructor
  · intro c rest hc
    have hidx : untrimIdx (c :: rest) = 1 := by
      unfold untrimIdx
      simp only [findNonWsByteOffset, hc]
      rfl
    unfold capitalize_untrimmed capitalize
    rw [hidx]
  · decide

/-- C9 witness: the equivalence applied at the concrete input `"qr"`. -/
theorem C9_untrimmed_eq_capitalize_witness :
    capitalize_untrimmed ['q', 'r'] = capitalize ['q', 'r'] :=
  C9_untrimmed_eq_capitalize_without_leading_ws.1 'q' ['r'] (by decide)

/-- C10: The `String` and `&str` implementations of `capitalize`, and
likewise of `capitalize_untrimmed`, are extensionally the same function:
the duplicated impl bodies compute equal results on every input. -/
theorem C10_string_and_str_impls_agree :
    ∀ s : List Char,
      capitalize s = capitalizeStr s ∧
      capitalize_untrimmed s = capitalizeUntrimmedStr s :=
  fun _ => ⟨rfl, rfl⟩

end Phesm
